import Mathlib

/-
  Verification development for the WindowsAiMic real-time audio pipeline.

  The C++ sources under src/engine are shallowly embedded below.  Machine
  floats and doubles are modelled by exact rationals; routines that the C++
  code takes from libm (std::exp, std::pow, std::log10) are abstracted as
  function parameters of the embedding, and theorems either hold for every
  such function or carry range hypotheses that the genuine transcendental
  values satisfy.  State that the code mutates in place is passed explicitly.
-/

namespace WindowsAiMic

/-- Model of std::clamp on rationals: clamp v lo hi. -/
def clampQ (v lo hi : ℚ) : ℚ := if v < lo then lo else if hi < v then hi else v

/-! ## Compressor (src/engine/src/dsp/compressor.cpp)

The gain computation works in dB, so the threshold, knee and input level are
carried as plain rationals; no transcendental functions occur inside
Compressor::computeGainDb itself. -/

structure CompParams where
  thresholdDb : ℚ
  ratio : ℚ
  kneeDb : ℚ
deriving DecidableEq

/-- Model of Compressor::setKnee: kneeDb_ = std::clamp(db, 0.0f, 12.0f). -/
def Compressor.setKnee (db : ℚ) : ℚ := clampQ db 0 12

/-- Model of Compressor::setThreshold: clamp to the range -40 to 0 dB. -/
def Compressor.setThreshold (db : ℚ) : ℚ := clampQ db (-40) 0

/-- Model of Compressor::setRatio: clamp to the range 1 to 20. -/
def Compressor.setRatio (r : ℚ) : ℚ := clampQ r 1 20

/-- The kneeStart value computed at the top of Compressor::computeGainDb. -/
def Compressor.kneeStart (p : CompParams) : ℚ := p.thresholdDb - p.kneeDb / 2

/-- The kneeEnd value computed at the top of Compressor::computeGainDb. -/
def Compressor.kneeEnd (p : CompParams) : ℚ := p.thresholdDb + p.kneeDb / 2

/-- The three arms of the if/else-if/else chain in Compressor::computeGainDb. -/
inductive CompBranch where
  | below
  | above
  | knee
deriving DecidableEq

/-- Which arm of Compressor::computeGainDb runs for a given input level.
This mirrors the branch conditions of the source exactly. -/
def Compressor.gainBranch (p : CompParams) (inputDb : ℚ) : CompBranch :=
  if inputDb < Compressor.kneeStart p then CompBranch.below
  else if inputDb > Compressor.kneeEnd p then CompBranch.above
  else CompBranch.knee

/-- Model of Compressor::computeGainDb.  In the knee arm the source divides by
2 * kneeWidth with kneeWidth = kneeDb_; over the rationals a division by zero
yields 0, whereas the IEEE float source yields a non-finite slope there. -/
def Compressor.computeGainDb (p : CompParams) (inputDb : ℚ) : ℚ :=
  let kneeStart := Compressor.kneeStart p
  let kneeEnd := Compressor.kneeEnd p
  let outputDb :=
    if inputDb < kneeStart then inputDb
    else if inputDb > kneeEnd then p.thresholdDb + (inputDb - p.thresholdDb) / p.ratio
    else
      let x := inputDb - kneeStart
      let kneeWidth := p.kneeDb
      let slope := (1 / p.ratio - 1) / (2 * kneeWidth)
      inputDb + slope * x * x
  outputDb - inputDb

/-! ## Expander (src/engine/src/dsp/expander.cpp)

Expander::computeGain calls std::log10 and std::pow; these are abstracted as
the parameters log10f and pow10f (pow10f q models std::pow(10, q)).  The
member field gainReductionDb_ that the source mutates is passed in and
returned explicitly; note that the tiny-envelope early return leaves it
untouched, exactly as the source does. -/

structure ExpGainParams where
  threshold : ℚ
  ratio : ℚ
deriving DecidableEq

structure ExpGainResult where
  gain : ℚ
  gainReductionDb : ℚ
deriving DecidableEq

/-- Model of Expander::setRatio: clamp to the range 1 to 10. -/
def Expander.setRatio (r : ℚ) : ℚ := clampQ r 1 10

/-- Model of Expander::computeGain.  The source returns the linear gain and
assigns the member gainReductionDb_ in two of its three arms. -/
def Expander.computeGain (log10f pow10f : ℚ → ℚ) (p : ExpGainParams)
    (gainReductionDb : ℚ) (envelope : ℚ) : ExpGainResult :=
  if envelope < 1 / 10 ^ 10 then
    { gain := 1 / 1000, gainReductionDb := gainReductionDb }
  else
    let envelopeDb := 20 * log10f envelope
    let thresholdDb := 20 * log10f p.threshold
    if envelopeDb < thresholdDb then
      let belowDb := thresholdDb - envelopeDb
      let expansionDb := belowDb * (p.ratio - 1)
      { gain := pow10f (-expansionDb / 20), gainReductionDb := -expansionDb }
    else
      { gain := 1, gainReductionDb := 0 }

structure ExpParams where
  threshold : ℚ
  ratio : ℚ
  attackCoeff : ℚ
  releaseCoeff : ℚ
  hysteresis : ℚ
deriving DecidableEq

structure ExpState where
  envelope : ℚ
  gainReductionDb : ℚ
  gateOpen : Bool
deriving DecidableEq

/-- One iteration of the loop in Expander::process: envelope follower,
hysteresis gate update, then computeGain and the in-place sample update. -/
def Expander.processStep (log10f pow10f : ℚ → ℚ) (p : ExpParams)
    (s : ExpState) (input : ℚ) : ExpState × ℚ :=
  let level := |input|
  let coeff := if level > s.envelope then p.attackCoeff else p.releaseCoeff
  let envelope := coeff * s.envelope + (1 - coeff) * level
  let effectiveThreshold := if s.gateOpen then p.threshold / p.hysteresis else p.threshold
  let gateOpen :=
    if envelope > p.threshold then true
    else if envelope < effectiveThreshold then false
    else s.gateOpen
  let r := Expander.computeGain log10f pow10f
    { threshold := p.threshold, ratio := p.ratio } s.gainReductionDb envelope
  ({ envelope := envelope, gainReductionDb := r.gainReductionDb, gateOpen := gateOpen },
   input * r.gain)

/-- Model of Expander::process over a buffer (enabled case). -/
def Expander.processRun (log10f pow10f : ℚ → ℚ) (p : ExpParams) :
    ExpState → List ℚ → ExpState × List ℚ
  | s, [] => (s, [])
  | s, x :: xs =>
    let sy := Expander.processStep log10f pow10f p s x
    let rest := Expander.processRun log10f pow10f p sy.1 xs
    (rest.1, sy.2 :: rest.2)

end WindowsAiMic

namespace WindowsAiMic

/-! ## Claims C10 and C8 -/

/-- Concrete stand-in for the float log10 routine used in the C8 evidence.
It agrees with the genuine base-10 logarithm at every argument on which the
evaluated run calls it: log10 (1/10) = -1 and log10 1 = 0. -/
def log10Test (q : ℚ) : ℚ := if q = 1 / 10 then -1 else 0

/-- Concrete stand-in for std::pow(10, -) used in the C8 evidence.  It agrees
with the genuine power at every argument on which the evaluated run calls it:
10 ^ (-1) = 1/10. -/
def pow10Test (q : ℚ) : ℚ := if q = -1 then 1 / 10 else 1

/-- Expander parameters used in the C8 evidence.  All fields are admissible:
threshold 1 is setThreshold 0 (0 dBFS), ratio 2 is inside the range 1 to 10,
attackCoeff 9/10 models exp(-1/(ms*48)) for ms about 0.198 inside the range
0.1 to 100, releaseCoeff 99/100 models a release inside 10 to 1000 ms, and
hysteresis 2 models about 6 dB inside 0 to 10 dB. -/
def expParamsC8 : ExpParams :=
  { threshold := 1, ratio := 2, attackCoeff := 9 / 10,
    releaseCoeff := 99 / 100, hysteresis := 2 }

/-- The expander state produced by Expander::reset. -/
def expResetState : ExpState :=
  { envelope := 0, gainReductionDb := 0, gateOpen := false }

/-- C8 counterexample: processing the single sample 1 with threshold 0 dBFS
and ratio 2 drives the envelope to 1/10 (-20 dB, below threshold), and the
code stores gainReductionDb_ = -20, a negative value.  The claim states the
exposed value is non-negative and equals (threshold_dB - env_dB)*(ratio-1)
= +20; the source stores the negation of that quantity. -/
theorem C8_counterexample :
    (Expander.processRun log10Test pow10Test expParamsC8 expResetState [1]).1.gainReductionDb
      = -20
    ∧ ¬ (0 ≤ (-20 : ℚ))
    ∧ log10Test (1 / 10) = -1 ∧ log10Test 1 = 0 := by
  refine ⟨?_, by norm_num, by norm_num [log10Test], by norm_num [log10Test]⟩
  norm_num [Expander.processRun, Expander.processStep, Expander.computeGain,
    expParamsC8, expResetState, log10Test, pow10Test]

/-- C8 amended: in the below-threshold arm of Expander::computeGain the field
gainReductionDb_ is assigned the negative quantity
-((threshold_dB - env_dB) * (ratio - 1)); with ratio at least 1 the stored
value is non-positive, not non-negative as the specification states.  This
holds for every model of the float log10 and pow routines. -/
theorem C8_gain_reduction_sign (log10f pow10f : ℚ → ℚ) (p : ExpGainParams)
    (grOld env : ℚ)
    (henv : ¬ env < 1 / 10 ^ 10)
    (hbelow : 20 * log10f env < 20 * log10f p.threshold)
    (hratio : 1 ≤ p.ratio) :
    (Expander.computeGain log10f pow10f p grOld env).gainReductionDb
      = -((20 * log10f p.threshold - 20 * log10f env) * (p.ratio - 1))
    ∧ (Expander.computeGain log10f pow10f p grOld env).gainReductionDb ≤ 0 := by
  have hpos : 0 ≤ (20 * log10f p.threshold - 20 * log10f env) * (p.ratio - 1) :=
    mul_nonneg (by linarith) (by linarith)
  unfold Expander.computeGain
  rw [if_neg henv, if_pos hbelow]
  constructor
  · rfl
  · simpa using neg_nonpos_of_nonneg hpos

/-- Witness for C8_gain_reduction_sign at the concrete run of the
counterexample: envelope 1/10, threshold 1, ratio 2. -/
theorem C8_witness :
    (¬ (1 : ℚ) / 10 < 1 / 10 ^ 10)
    ∧ ((Expander.computeGain log10Test pow10Test
          { threshold := 1, ratio := 2 } 0 (1 / 10)).gainReductionDb
        = -((20 * log10Test 1 - 20 * log10Test (1 / 10)) * (2 - 1))
      ∧ (Expander.computeGain log10Test pow10Test
          { threshold := 1, ratio := 2 } 0 (1 / 10)).gainReductionDb ≤ 0) := by
  refine ⟨by norm_num, ?_⟩
  exact C8_gain_reduction_sign log10Test pow10Test { threshold := 1, ratio := 2 } 0 (1 / 10)
    (by norm_num) (by norm_num [log10Test]) (by norm_num)

/-- C10 counterexample: with knee_dB = 0 (which Compressor::setKnee admits)
and an input level exactly at the threshold, the knee arm of
Compressor::computeGainDb is the one that runs, so the slope expression
(1/ratio - 1)/(2*kneeWidth) is evaluated with a zero knee width.  The claim
states that arm is evaluated only when knee_dB > 0. -/
theorem C10_counterexample :
    Compressor.gainBranch { thresholdDb := -18, ratio := 4, kneeDb := 0 } (-18)
      = CompBranch.knee
    ∧ Compressor.setKnee 0 = 0
    ∧ ¬ (0 < (0 : ℚ)) := by
  refine ⟨?_, by norm_num [Compressor.setKnee, clampQ], by norm_num⟩
  norm_num [Compressor.gainBranch, Compressor.kneeStart, Compressor.kneeEnd]

/-- C10 amended: the knee arm of Compressor::computeGainDb is guarded only by
kneeStart ≤ inputDb ≤ kneeEnd, not by knee_dB > 0.  With knee_dB = 0 and the
input level exactly at the threshold the knee arm runs and the denominator
2 * kneeWidth of its slope expression is zero, so the division by a zero knee
width is reachable (in the IEEE float source it yields a non-finite slope). -/
theorem C10_knee_zero_reachable (p : CompParams) (inputDb : ℚ)
    (hk : p.kneeDb = 0) (hx : inputDb = p.thresholdDb) :
    Compressor.gainBranch p inputDb = CompBranch.knee ∧ 2 * p.kneeDb = 0 := by
  subst hx
  constructor
  · unfold Compressor.gainBranch Compressor.kneeStart Compressor.kneeEnd
    rw [hk]
    norm_num
  · rw [hk]; ring

/-- Witness for C10_knee_zero_reachable with threshold -18 dB, ratio 4 and
knee 0. -/
theorem C10_witness :
    Compressor.gainBranch { thresholdDb := -18, ratio := 4, kneeDb := 0 } (-18)
      = CompBranch.knee
    ∧ 2 * ({ thresholdDb := -18, ratio := 4, kneeDb := 0 } : CompParams).kneeDb = 0 :=
  C10_knee_zero_reachable { thresholdDb := -18, ratio := 4, kneeDb := 0 } (-18) rfl rfl

end WindowsAiMic

namespace WindowsAiMic

/-! ## AI denoiser (src/engine/src/ai/rnnoise_processor.cpp)

The rnnoise_process_frame inference call is external to the repository; it is
abstracted as a parameter infer acting on the scaled frame, exactly at the
call site where the source invokes it.  RNNoiseProcessor buffers input into a
480-sample frame, runs inference on complete frames, stores results in a
1920-sample output ring and copies the delayed output back into the caller
buffer. -/

/-- Model of RNNoiseProcessor::processFrame.  The loop scales to the 16-bit
range, runs inference, converts back, computes the attenuation blend into the
frame slot, and then immediately overwrites that slot with the processed
sample (the statement frame[i] = processed that follows the blend in the
source); the dead blend value is kept here as the unused binding. -/
def RNNoise.processFrame (infer : List ℚ → List ℚ) (attenuation : ℚ)
    (frame : List ℚ) : List ℚ :=
  let scaledFrame := frame.map (fun x => x * 32767)
  let denoised := infer scaledFrame
  List.zipWith (fun s orig =>
      let processed := s / 32767
      let _blended := processed * (1 - attenuation) + orig * attenuation
      processed)
    denoised frame

/-- Modelled from the spec: the contract stated for attenuation_dB, namely
that each output sample is the linear mix processed*(1-a) + dry*a.  This is
the comparison point for the refinement claim C1; it is built from the words
of the specification, not from the source. -/
def RNNoise.processFrameSpecMix (infer : List ℚ → List ℚ) (attenuation : ℚ)
    (frame : List ℚ) : List ℚ :=
  let scaledFrame := frame.map (fun x => x * 32767)
  let denoised := infer scaledFrame
  List.zipWith (fun s orig =>
      (s / 32767) * (1 - attenuation) + orig * attenuation)
    denoised frame

/-- Model of RNNoiseProcessor::setAttenuation; pow10f models std::pow(10,-).
attenuation_ = 10 ^ (clamp(db, -60, 0) / 20). -/
def RNNoise.setAttenuation (pow10f : ℚ → ℚ) (db : ℚ) : ℚ :=
  pow10f (clampQ db (-60) 0 / 20)

/-- Result record of one RNNoiseProcessor::process call: the three mutable
members it updates, plus the list of frames passed to processFrame (the
inference trace, recorded for the alignment claim). -/
structure LoopResult where
  pending : List ℚ
  outRing : List ℚ
  outPos : ℕ
  trace : List (List ℚ)

/-- Splices xs into l starting at pos, modelling std::copy into a buffer. -/
def writeSlice (l : List ℚ) (pos : ℕ) (xs : List ℚ) : List ℚ :=
  l.take pos ++ xs ++ l.drop (pos + xs.length)

/-- Model of the copy of a processed frame into outputBuffer_ with wrap, and
the advance of outputPos_. -/
def RNNoise.ringWrite (ring : List ℚ) (pos : ℕ) (frame : List ℚ) :
    List ℚ × ℕ :=
  let outputSpace := ring.length - pos
  let ring2 :=
    if 480 ≤ outputSpace then writeSlice ring pos frame
    else writeSlice (writeSlice ring pos (frame.take outputSpace)) 0
      (frame.drop outputSpace)
  (ring2, (pos + 480) % ring.length)

/-- Model of the while loop of RNNoiseProcessor::process.  pending is the
filled prefix of frameBuffer_ (its length is bufferPos_); the loop copies
min(remaining, 480 - bufferPos_) samples, and on a complete frame runs
processFrame, copies it into the output ring, and resets bufferPos_.  The
final arm is unreachable from valid states: the source maintains
bufferPos_ < 480 at the top of every iteration. -/
def RNNoise.processLoop (infer : List ℚ → List ℚ) (att : ℚ)
    (pending outRing : List ℚ) (outPos : ℕ) (input : List ℚ) : LoopResult :=
  if hin : input = [] then
    { pending := pending, outRing := outRing, outPos := outPos, trace := [] }
  else if hp : pending.length < 480 then
    let k := min input.length (480 - pending.length)
    let pending2 := pending ++ input.take k
    if pending2.length = 480 then
      let frame := RNNoise.processFrame infer att pending2
      let rw2 := RNNoise.ringWrite outRing outPos frame
      let rest := RNNoise.processLoop infer att [] rw2.1 rw2.2 (input.drop k)
      { rest with trace := pending2 :: rest.trace }
    else
      RNNoise.processLoop infer att pending2 outRing outPos (input.drop k)
  else
    { pending := pending, outRing := outRing, outPos := outPos, trace := [] }
termination_by input.length
decreasing_by
  all_goals
    have hlen : 0 < input.length := List.length_pos.mpr hin
    have hk : 1 ≤ min input.length (480 - pending.length) := by
      have : 1 ≤ 480 - pending.length := by omega
      exact le_min hlen this
    simp only [List.length_drop]
    omega

/-- The denoiser state: hasState models the state_ pointer being non-null,
the other fields are the mutable members of RNNoiseProcessor. -/
structure RNNoiseState where
  hasState : Bool
  pending : List ℚ
  outRing : List ℚ
  outPos : ℕ

/-- State after RNNoiseProcessor construction plus a successful call of the
init routine: empty frame buffer, zeroed 4-frame output ring. -/
def RNNoise.initState : RNNoiseState :=
  { hasState := true, pending := [], outRing := List.replicate 1920 0,
    outPos := 0 }

/-- Result of a full RNNoiseProcessor::process call. -/
structure ProcResult where
  state : RNNoiseState
  out : List ℚ
  trace : List (List ℚ)

/-- Model of RNNoiseProcessor::process.  A null backend state makes the call
return immediately, leaving the caller buffer untouched.  Otherwise the input
is buffered and complete frames are processed, and the final loop copies the
delayed output ring contents back into the caller buffer starting at
(outputPos_ + size - frames) mod size. -/
def RNNoise.process (infer : List ℚ → List ℚ) (att : ℚ) (s : RNNoiseState)
    (buffer : List ℚ) : ProcResult :=
  if s.hasState = false then { state := s, out := buffer, trace := [] }
  else
    let r := RNNoise.processLoop infer att s.pending s.outRing s.outPos buffer
    let frames := buffer.length
    let ringLen := r.outRing.length
    let startPos := (r.outPos + ringLen - frames) % ringLen
    let out := (List.range frames).map
      (fun i => r.outRing.getD ((startPos + i) % ringLen) 0)
    let s2 := { s with pending := r.pending, outRing := r.outRing, outPos := r.outPos }
    { state := s2, out := out, trace := r.trace }

/-- Model of Engine::initializeProcessors (leading rnnoise section): when the
rnnoise init routine reports failure the whole routine returns false; the
remaining unit constructions and parameter applications cannot fail, so
otherwise it returns true. -/
def Engine.initProcessors (rnnoiseInitOk : Bool) : Bool :=
  if rnnoiseInitOk = false then false else true

end WindowsAiMic

namespace WindowsAiMic

/-! ## Claims C1 and C7 -/

/-- Helper: zipWith over two replicate lists of the same length. -/
theorem zipWith_replicate_eq (f : ℚ → ℚ → ℚ) (a b : ℚ) (n : ℕ) :
    List.zipWith f (List.replicate n a) (List.replicate n b)
      = List.replicate n (f a b) := by
  induction n with
  | zero => rfl
  | succ n ih => simp [List.replicate_succ, ih]

/-- An inference model that zeroes every band: a denoiser output of silence.
Used as the concrete inference step in the C1 evidence. -/
def inferZero (l : List ℚ) : List ℚ := l.map (fun _ => 0)

/-- C1 counterexample: with attenuation_dB = 0 the stored blend factor is
a = 1 and the claimed policy makes the output equal the dry frame; feeding a
frame of ones to a denoiser that returns silence, the code instead outputs
silence, because the blend is overwritten by the processed sample.  The
specification mix and the code thus differ on this concrete frame. -/
theorem C1_counterexample :
    RNNoise.processFrame inferZero 1 (List.replicate 480 1)
      = List.replicate 480 0
    ∧ RNNoise.processFrameSpecMix inferZero 1 (List.replicate 480 1)
      = List.replicate 480 1
    ∧ List.replicate 480 (0 : ℚ) ≠ List.replicate 480 (1 : ℚ) := by
  refine ⟨?_, ?_, ?_⟩
  · simp only [RNNoise.processFrame, inferZero, List.map_replicate,
      zipWith_replicate_eq]
    norm_num
  · simp only [RNNoise.processFrameSpecMix, inferZero, List.map_replicate,
      zipWith_replicate_eq]
    norm_num
  · intro h
    rw [List.replicate_succ, List.replicate_succ] at h
    injection h with h1 h2
    norm_num at h1

/-- C1 amended: RNNoiseProcessor::processFrame ignores the attenuation
parameter entirely.  The blend is computed and immediately discarded, so
every output sample equals the processed (denoised) sample, for every
inference model, every attenuation value and every frame; in particular the
result is the same for any two attenuation values. -/
theorem C1_blend_overwritten (infer : List ℚ → List ℚ) (att att2 : ℚ)
    (frame : List ℚ) :
    RNNoise.processFrame infer att frame
      = List.zipWith (fun s _ => s / 32767)
          (infer (frame.map (fun x => x * 32767))) frame
    ∧ RNNoise.processFrame infer att frame
      = RNNoise.processFrame infer att2 frame :=
  ⟨rfl, rfl⟩

/-- C7 counterexample: when the rnnoise backend fails to come up,
Engine::initializeProcessors returns false, so engine initialization fails;
the claim states that denoiser unavailability does not make initialization
return false. -/
theorem C7_counterexample :
    Engine.initProcessors false = false ∧ false ≠ true := by
  refine ⟨rfl, by simp⟩

/-- C7 amended: the process routine of the denoiser is a safe pass-through
when the backend state is null (the caller buffer and the processor state are
untouched and no inference runs), but Engine::initializeProcessors reports
failure when the backend cannot initialize, so engine initialization fails
rather than proceeding with the pass-through denoiser. -/
theorem C7_passthrough_but_init_fails (infer : List ℚ → List ℚ) (att : ℚ)
    (s : RNNoiseState) (buf : List ℚ) (h : s.hasState = false) :
    (RNNoise.process infer att s buf).state = s
    ∧ (RNNoise.process infer att s buf).out = buf
    ∧ (RNNoise.process infer att s buf).trace = []
    ∧ Engine.initProcessors false = false := by
  simp [RNNoise.process, h, Engine.initProcessors]

/-- The null-backend denoiser state used in the C7 witness. -/
def rnNullState : RNNoiseState :=
  { hasState := false, pending := [], outRing := [], outPos := 0 }

/-- Witness for C7_passthrough_but_init_fails at a concrete null-backend
state and a concrete one-sample buffer. -/
theorem C7_witness :
    rnNullState.hasState = false
    ∧ ((RNNoise.process inferZero 0 rnNullState [1]).state = rnNullState
      ∧ (RNNoise.process inferZero 0 rnNullState [1]).out = [1]
      ∧ (RNNoise.process inferZero 0 rnNullState [1]).trace = []
      ∧ Engine.initProcessors false = false) :=
  ⟨rfl, C7_passthrough_but_init_fails inferZero 0 rnNullState [1] rfl⟩

end WindowsAiMic


namespace WindowsAiMic

/-! ## Lock-free ring buffer (src/engine/src/audio/audio_buffer.cpp)

The single-producer single-consumer ring is embedded as a record of its
backing array (length capacity + 1) and the two position indices.  The
atomic load/store orderings of the source concern cross-thread publication
only; the functional content of write and read is embedded directly. -/

structure RingBuffer where
  buffer : List ℚ
  capacity : ℕ
  readPos : ℕ
  writePos : ℕ
deriving DecidableEq

/-- State after the LockFreeRingBuffer constructor: a zeroed backing array of
length capacity + 1 and both positions at 0. -/
def RingBuffer.create (capacity : ℕ) : RingBuffer :=
  { buffer := List.replicate (capacity + 1) 0, capacity := capacity,
    readPos := 0, writePos := 0 }

/-- Model of LockFreeRingBuffer::availableWrite. -/
def RingBuffer.availableWrite (rb : RingBuffer) : ℕ :=
  if rb.readPos ≤ rb.writePos then rb.capacity - (rb.writePos - rb.readPos)
  else rb.readPos - rb.writePos - 1

/-- Model of LockFreeRingBuffer::availableRead. -/
def RingBuffer.availableRead (rb : RingBuffer) : ℕ :=
  if rb.readPos ≤ rb.writePos then rb.writePos - rb.readPos
  else rb.buffer.length - rb.readPos + rb.writePos

/-- Model of LockFreeRingBuffer::write: deposits at most the available space
(two memcpy parts around the wrap), advances only the write position, and
returns the number of samples actually stored; the overflowing tail of data
is simply not written. -/
def RingBuffer.write (rb : RingBuffer) (data : List ℚ) : RingBuffer × ℕ :=
  let available :=
    if rb.readPos ≤ rb.writePos then rb.capacity - (rb.writePos - rb.readPos)
    else rb.readPos - rb.writePos - 1
  let toWrite := min data.length available
  if toWrite = 0 then (rb, 0)
  else
    let bufferSize := rb.buffer.length
    let firstPart := min toWrite (bufferSize - rb.writePos)
    let buf1 := writeSlice rb.buffer rb.writePos (data.take firstPart)
    let buf2 :=
      if firstPart < toWrite then
        writeSlice buf1 0 ((data.drop firstPart).take (toWrite - firstPart))
      else buf1
    let newWrite := (rb.writePos + toWrite) % bufferSize
    ({ rb with buffer := buf2, writePos := newWrite }, toWrite)

/-- Model of LockFreeRingBuffer::read: consumes at most the available data,
advances only the read position, and returns the samples read. -/
def RingBuffer.read (rb : RingBuffer) (count : ℕ) : RingBuffer × List ℚ :=
  let available :=
    if rb.readPos ≤ rb.writePos then rb.writePos - rb.readPos
    else rb.buffer.length - rb.readPos + rb.writePos
  let toRead := min count available
  if toRead = 0 then (rb, [])
  else
    let bufferSize := rb.buffer.length
    let firstPart := min toRead (bufferSize - rb.readPos)
    let out := (rb.buffer.drop rb.readPos).take firstPart
      ++ rb.buffer.take (toRead - firstPart)
    let newRead := (rb.readPos + toRead) % bufferSize
    ({ rb with readPos := newRead }, out)

/-! ## Engine capture path and processing block (src/engine/src/engine.cpp) -/

/-- Model of the mono downmix at the top of Engine::onAudioCaptured:
averaging of channel pairs when channels == 2, verbatim copy otherwise. -/
def Engine.downmix (channels : ℕ) (buffer : List ℚ) : List ℚ :=
  if channels = 2 then
    (List.range (buffer.length / 2)).map
      (fun i => (buffer.getD (2 * i) 0 + buffer.getD (2 * i + 1) 0) * (1 / 2))
  else buffer

/-- Model of Engine::onAudioCaptured: downmix, optional input resampling,
then a plain ring write whose return value is discarded.  No counter of any
kind is maintained and the reader position is never touched. -/
def Engine.onAudioCaptured (resample : Option (List ℚ → List ℚ))
    (rb : RingBuffer) (channels : ℕ) (buffer : List ℚ) : RingBuffer :=
  let mono := Engine.downmix channels buffer
  let audio :=
    match resample with
    | some f => f mono
    | none => mono
  (rb.write audio).1

/-- Model of Engine::processAudioBlock.  The metering unit state has an
abstract type with an update function, matching the const observation the
source makes (Metering::process takes a pointer to const and cannot modify
the audio); the five processing units are abstract buffer transformers in
the order the source applies them.  The bypass arm updates the two meters
and returns with the buffer untouched. -/
def Engine.processAudioBlock {μ : Type} (bypass : Bool)
    (meterUpd : μ → List ℚ → μ) (inMeter outMeter : μ)
    (ai expander equalizer compressor limiter : List ℚ → List ℚ)
    (buffer : List ℚ) : μ × μ × List ℚ :=
  let inMeter2 := meterUpd inMeter buffer
  if bypass then (inMeter2, meterUpd outMeter buffer, buffer)
  else
    let b1 := ai buffer
    let b2 := expander b1
    let b3 := equalizer b2
    let b4 := compressor b3
    let b5 := limiter b4
    (inMeter2, meterUpd outMeter b5, b5)

/-! ## Claims C6 and C9 -/

/-- A completely full ring of capacity 2 holding the samples 10 and 20
(oldest first): readPos 0, writePos 2, no space available. -/
def rbFullC6 : RingBuffer :=
  { buffer := [10, 20, 0], capacity := 2, readPos := 0, writePos := 2 }

/-- C6 counterexample: writing a new sample 30 into the full ring returns 0
and leaves the ring completely unchanged: the reader is not advanced, the
oldest samples 10 and 20 stay, and the newest sample 30 is the one dropped.
The claim states the oldest samples are dropped by advancing the reader so
that the newest are retained, with an overflow counter incremented; the
capture path has no counter and discards the new samples instead. -/
theorem C6_counterexample :
    RingBuffer.write rbFullC6 [30] = (rbFullC6, 0)
    ∧ (RingBuffer.write rbFullC6 [30]).1.readPos = 0
    ∧ rbFullC6.availableWrite = 0
    ∧ Engine.onAudioCaptured none rbFullC6 1 [30] = rbFullC6 := by
  refine ⟨?_, ?_, ?_, ?_⟩
  · simp [RingBuffer.write, rbFullC6]
  · simp [RingBuffer.write, rbFullC6]
  · simp [RingBuffer.availableWrite, rbFullC6]
  · simp [Engine.onAudioCaptured, Engine.downmix, RingBuffer.write, rbFullC6]

/-- C6 amended: when the input ring lacks space for all the resampled
samples, LockFreeRingBuffer::write stores only the first availableWrite many
of them and silently discards the overflowing newest samples; the reader
position is never advanced by a write, and no overflow counter exists (the
return value is discarded by Engine::onAudioCaptured).  The operation is a
total function and never blocks. -/
theorem C6_overflow_drops_newest (rb : RingBuffer) (data : List ℚ)
    (h : rb.availableWrite < data.length) :
    (RingBuffer.write rb data).2 = rb.availableWrite
    ∧ (RingBuffer.write rb data).1.readPos = rb.readPos := by
  have hmin : min data.length rb.availableWrite = rb.availableWrite :=
    min_eq_right (le_of_lt h)
  simp only [RingBuffer.write]
  unfold RingBuffer.availableWrite at hmin
  rw [hmin]
  by_cases h0 : (if rb.readPos ≤ rb.writePos then
      rb.capacity - (rb.writePos - rb.readPos)
    else rb.readPos - rb.writePos - 1) = 0
  · rw [if_pos h0]
    refine ⟨?_, rfl⟩
    unfold RingBuffer.availableWrite
    exact h0.symm
  · rw [if_neg h0]
    refine ⟨?_, rfl⟩
    unfold RingBuffer.availableWrite
    rfl

/-- Witness for C6_overflow_drops_newest at the full ring and the one-sample
write of the counterexample. -/
theorem C6_witness :
    rbFullC6.availableWrite < [(30 : ℚ)].length
    ∧ ((RingBuffer.write rbFullC6 [30]).2 = rbFullC6.availableWrite
      ∧ (RingBuffer.write rbFullC6 [30]).1.readPos = rbFullC6.readPos) := by
  have h : rbFullC6.availableWrite < [(30 : ℚ)].length := by
    simp [RingBuffer.availableWrite, rbFullC6]
  exact ⟨h, C6_overflow_drops_newest rbFullC6 [30] h⟩

/-- C9: with bypass enabled, Engine::processAudioBlock leaves the audio
buffer bitwise unchanged; only the two metering units observe the block, and
the denoiser and every DSP unit are skipped (the result does not depend on
them at all).  With matched device and internal rates the processing thread
then copies this unchanged block verbatim to the output ring and render
path, so the pipeline output equals the input sample-for-sample. -/
theorem C9_bypass_identity {μ : Type} (meterUpd : μ → List ℚ → μ)
    (inMeter outMeter : μ)
    (ai expander equalizer compressor limiter : List ℚ → List ℚ)
    (buffer : List ℚ) :
    Engine.processAudioBlock true meterUpd inMeter outMeter
        ai expander equalizer compressor limiter buffer
      = (meterUpd inMeter buffer, meterUpd outMeter buffer, buffer) := rfl

end WindowsAiMic

namespace WindowsAiMic

/-! ## Limiter (src/engine/src/dsp/limiter.cpp)

The limiter state machine is embedded with its coefficient values as record
fields: ceiling models the linear ceiling stored by setCeiling (a power of
10), releaseCoeff models exp(-1/(release_ms*48)) stored by setRelease,
attackCoeff models the exp(-1/lookaheadSamples_) recomputed inside the loop,
and gainDbOf models the -20*log10(max(g, 1e-4)) stored into the
gainReductionDb_ member.  The theorems quantify over these fields under
range hypotheses that the genuine float values satisfy. -/

structure LimParams where
  enabled : Bool
  ceiling : ℚ
  releaseCoeff : ℚ
  lookaheadSamples : ℕ
  attackCoeff : ℚ
  gainDbOf : ℚ → ℚ

structure LimState where
  ring : List ℚ
  pos : ℕ
  gainReductionDb : ℚ
  smoothedGain : ℚ
deriving DecidableEq

/-- Model of Limiter::setLookahead: the sample count is the float product
clamp(ms,0,10)*48000/1000 truncated by static_cast to size_t. -/
def Limiter.setLookahead (ms : ℚ) : ℕ :=
  (⌊clampQ ms 0 10 * 48000 / 1000⌋).toNat

/-- State after Limiter::setLookahead resized and zeroed the ring (length
lookaheadSamples + 1) followed by Limiter::reset: position 0, smoothed gain
1, gain reduction 0. -/
def Limiter.initState (lookaheadSamples : ℕ) : LimState :=
  { ring := List.replicate (lookaheadSamples + 1) 0, pos := 0,
    gainReductionDb := 0, smoothedGain := 1 }

/-- The peak scan over the entire lookahead ring performed per sample. -/
def Limiter.peak (l : List ℚ) : ℚ := l.foldl (fun m x => max m |x|) 0

/-- One iteration of the zero-lookahead arm of Limiter::process. -/
def Limiter.stepNoLA (p : LimParams) (s : LimState) (input : ℚ) :
    LimState × ℚ :=
  let absInput := |input|
  let targetGain := if absInput > p.ceiling then p.ceiling / absInput else 1
  let smoothedGain :=
    if targetGain < s.smoothedGain then targetGain
    else p.releaseCoeff * s.smoothedGain + (1 - p.releaseCoeff) * targetGain
  let gainReductionDb := p.gainDbOf smoothedGain
  ({ s with smoothedGain := smoothedGain, gainReductionDb := gainReductionDb },
   input * smoothedGain)

/-- One iteration of the lookahead arm of Limiter::process: read the delayed
sample, store the input in its slot, scan the whole ring for the peak,
derive the target gain, smooth with the attack coefficient on reduction and
the release coefficient otherwise, and output delayed * smoothedGain. -/
def Limiter.stepLA (p : LimParams) (s : LimState) (input : ℚ) :
    LimState × ℚ :=
  let delayedSample := s.ring.getD s.pos 0
  let ring2 := s.ring.set s.pos input
  let peakLevel := Limiter.peak ring2
  let targetGain := if peakLevel > p.ceiling then p.ceiling / peakLevel else 1
  let smoothedGain :=
    if targetGain < s.smoothedGain then
      p.attackCoeff * s.smoothedGain + (1 - p.attackCoeff) * targetGain
    else
      p.releaseCoeff * s.smoothedGain + (1 - p.releaseCoeff) * targetGain
  let gainReductionDb := p.gainDbOf smoothedGain
  ({ ring := ring2, pos := (s.pos + 1) % ring2.length,
     gainReductionDb := gainReductionDb, smoothedGain := smoothedGain },
   delayedSample * smoothedGain)

/-- The per-sample loop of the zero-lookahead arm over a buffer. -/
def Limiter.runNoLA (p : LimParams) : LimState → List ℚ → LimState × List ℚ
  | s, [] => (s, [])
  | s, x :: xs =>
    let sy := Limiter.stepNoLA p s x
    let rest := Limiter.runNoLA p sy.1 xs
    (rest.1, sy.2 :: rest.2)

/-- The per-sample loop of the lookahead arm over a buffer. -/
def Limiter.runLA (p : LimParams) : LimState → List ℚ → LimState × List ℚ
  | s, [] => (s, [])
  | s, x :: xs =>
    let sy := Limiter.stepLA p s x
    let rest := Limiter.runLA p sy.1 xs
    (rest.1, sy.2 :: rest.2)

/-- Model of Limiter::process: no-op when disabled, instantaneous limiting
when lookaheadSamples_ is zero, lookahead limiting otherwise. -/
def Limiter.process (p : LimParams) (s : LimState) (buffer : List ℚ) :
    LimState × List ℚ :=
  if p.enabled = false then (s, buffer)
  else if p.lookaheadSamples = 0 then Limiter.runNoLA p s buffer
  else Limiter.runLA p s buffer

/-- The input sample a delay line of length L reproduces at time t: zero for
the first L steps, then the sample from L steps ago. -/
def xpad (xs : List ℚ) (L t : ℕ) : ℚ :=
  if t < L then 0 else xs.getD (t - L) 0

end WindowsAiMic

namespace WindowsAiMic

/-! ## Helper lemmas for the limiter proofs -/

theorem getD_set_self (l : List ℚ) (i : ℕ) (a : ℚ) (h : i < l.length) :
    (l.set i a).getD i 0 = a := by
  simp [List.getD_eq_getElem?_getD, List.getElem?_set_eq_of_lt a h]

theorem getD_set_ne (l : List ℚ) (i j : ℕ) (a : ℚ) (h : i ≠ j) :
    (l.set i a).getD j 0 = l.getD j 0 := by
  simp [List.getD_eq_getElem?_getD, List.getElem?_set_ne h]

theorem getD_replicate_zero (n i : ℕ) :
    (List.replicate n (0 : ℚ)).getD i 0 = 0 := by
  simp only [List.getD_eq_getElem?_getD, List.getElem?_replicate]
  split <;> rfl

theorem add_mod_ne (t d L : ℕ) (hd1 : 0 < d) (hd2 : d < L) :
    (t + d) % L ≠ t % L := by
  intro h
  have h1 : L ∣ t + d - t :=
    (Nat.modEq_iff_dvd' (Nat.le_add_right t d)).mp (Nat.ModEq.symm h)
  have h2 : t + d - t = d := by omega
  rw [h2] at h1
  have := Nat.le_of_dvd hd1 h1
  omega

theorem runLA_append (p : LimParams) (xs ys : List ℚ) (s : LimState) :
    Limiter.runLA p s (xs ++ ys)
      = ((Limiter.runLA p (Limiter.runLA p s xs).1 ys).1,
         (Limiter.runLA p s xs).2 ++ (Limiter.runLA p (Limiter.runLA p s xs).1 ys).2) := by
  induction xs generalizing s with
  | nil => simp [Limiter.runLA]
  | cons x xs ih => simp [Limiter.runLA, ih]

theorem runLA_length (p : LimParams) (xs : List ℚ) (s : LimState) :
    (Limiter.runLA p s xs).2.length = xs.length := by
  induction xs generalizing s with
  | nil => rfl
  | cons x xs ih => simp [Limiter.runLA, ih]

theorem set_replicate_zero (n i : ℕ) :
    (List.replicate n (0 : ℚ)).set i 0 = List.replicate n 0 := by
  induction n generalizing i with
  | zero => rfl
  | succ n ih =>
    cases i with
    | zero => simp [List.replicate_succ]
    | succ i => simp [List.replicate_succ, ih]

theorem foldl_max_abs_zeros (n : ℕ) (m : ℚ) (hm : 0 ≤ m) :
    List.foldl (fun a x => max a |x|) m (List.replicate n 0) = m := by
  induction n with
  | zero => rfl
  | succ n ih =>
    rw [List.replicate_succ, List.foldl_cons]
    simpa [abs_of_nonneg, max_eq_left hm] using ih

/-- The delay-line invariant for the lookahead ring after t processed
samples of the stream xs: the ring has length L, the position is t mod L,
and the slot read j steps from now holds the stream sample that entered
L - j steps in the past (zero before the stream started). -/
def RingInv (L : ℕ) (xs : List ℚ) (t : ℕ) (s : LimState) : Prop :=
  s.ring.length = L ∧ s.pos = t % L
  ∧ ∀ j, j < L → s.ring.getD ((t + j) % L) 0 = xpad xs L (t + j)

theorem stepLA_inv (p : LimParams) (L : ℕ) (hL : 0 < L) (xs : List ℚ)
    (t : ℕ) (s : LimState) (hinv : RingInv L xs t s) :
    RingInv L xs (t + 1) (Limiter.stepLA p s (xs.getD t 0)).1
    ∧ (Limiter.stepLA p s (xs.getD t 0)).2
      = (Limiter.stepLA p s (xs.getD t 0)).1.smoothedGain * xpad xs L t := by
  obtain ⟨hlen, hpos, hget⟩ := hinv
  have hmodlt : t % L < L := Nat.mod_lt _ hL
  have hposlt : s.pos < s.ring.length := by rw [hlen, hpos]; exact hmodlt
  have hsetlen : (s.ring.set s.pos (xs.getD t 0)).length = L := by
    rw [List.length_set, hlen]
  have hdel : s.ring.getD s.pos 0 = xpad xs L t := by
    have h0 := hget 0 hL
    rw [Nat.add_zero] at h0
    rw [hpos, h0]
  refine ⟨⟨?_, ?_, ?_⟩, ?_⟩
  · simp only [Limiter.stepLA]
    exact hsetlen
  · simp only [Limiter.stepLA]
    rw [hsetlen, hpos, Nat.mod_add_mod]
  · intro j hj
    simp only [Limiter.stepLA]
    by_cases hjL : j = L - 1
    · subst hjL
      have h1 : t + 1 + (L - 1) = t + L := by omega
      have hidx : (t + 1 + (L - 1)) % L = t % L := by
        rw [h1, Nat.add_mod_right]
      rw [hidx, ← hpos, getD_set_self _ _ _ hposlt]
      have h2 : ¬ (t + 1 + (L - 1) < L) := by omega
      rw [xpad, if_neg h2]
      congr 1
      omega
    · have hne : s.pos ≠ (t + 1 + j) % L := by
        rw [hpos]
        have h3 : t + 1 + j = t + (j + 1) := by omega
        rw [h3]
        exact fun h => add_mod_ne t (j + 1) L (by omega) (by omega) h.symm
      rw [getD_set_ne _ _ _ _ hne]
      have h4 := hget (j + 1) (by omega)
      have h5 : t + (j + 1) = t + 1 + j := by omega
      rw [h5] at h4
      exact h4
  · simp only [Limiter.stepLA]
    rw [hdel]
    exact mul_comm _ _

theorem runLA_delay (p : LimParams) (L : ℕ) (hL : 0 < L) (xs : List ℚ) :
    ∀ (ys : List ℚ) (t : ℕ) (s : LimState), RingInv L xs t s → ys = xs.drop t →
      ∀ j, j < ys.length →
        (Limiter.runLA p s ys).2.getD j 0
          = (Limiter.runLA p s (ys.take (j + 1))).1.smoothedGain * xpad xs L (t + j) := by
  intro ys
  induction ys with
  | nil =>
    intro t s _ _ j hj
    simp at hj
  | cons y ys2 ih =>
    intro t s hinv hdrop j hj
    have hy : y = xs.getD t 0 := by
      have h1 : xs[t]? = some y := by
        have h2 := congrArg (fun l => l[0]?) hdrop
        simp only [List.getElem?_cons_zero, List.getElem?_drop, Nat.add_zero] at h2
        exact h2.symm
      simp [List.getD_eq_getElem?_getD, h1]
    have hys2 : ys2 = xs.drop (t + 1) := by
      have h3 := congrArg List.tail hdrop
      simpa [List.tail_drop] using h3
    subst hy
    obtain ⟨hinv2, hout⟩ := stepLA_inv p L hL xs t s hinv
    cases j with
    | zero =>
      simp only [Limiter.runLA, List.take, Nat.add_zero]
      simpa using hout
    | succ j' =>
      have hj' : j' < ys2.length := by simpa using hj
      have hrec := ih (t + 1) (Limiter.stepLA p s (xs.getD t 0)).1 hinv2 hys2 j' hj'
      simp only [Limiter.runLA, List.take, List.getD_cons_succ]
      have h6 : t + 1 + j' = t + (j' + 1) := by omega
      rw [← h6]
      exact hrec

theorem runNoLA_inst (q : LimParams) :
    ∀ (ys : List ℚ) (s : LimState) (k : ℕ), k < ys.length →
      (Limiter.runNoLA q s ys).2.getD k 0
        = (Limiter.runNoLA q s (ys.take (k + 1))).1.smoothedGain * ys.getD k 0 := by
  intro ys
  induction ys with
  | nil =>
    intro s k hk
    simp at hk
  | cons y ys2 ih =>
    intro s k hk
    cases k with
    | zero =>
      simp only [Limiter.runNoLA, List.take, Nat.add_zero, List.getD_cons_zero]
      simp [Limiter.runNoLA, Limiter.stepNoLA, mul_comm]
    | succ k' =>
      simp only [Limiter.runNoLA, List.take, List.getD_cons_succ]
      exact ih _ _ (by simpa using hk)

theorem initState_inv (L : ℕ) (xs : List ℚ) (N : ℕ) (hLN : L = N + 1) :
    RingInv L xs 0 (Limiter.initState N) := by
  refine ⟨?_, ?_, ?_⟩
  · simp [Limiter.initState, hLN]
  · simp [Limiter.initState]
  · intro j hj
    simp only [Limiter.initState, Nat.zero_add]
    rw [hLN, getD_replicate_zero, xpad, if_pos (by omega)]

end WindowsAiMic

namespace WindowsAiMic

/-! ## Claims C4 and C2 -/

/-- Limiter parameters used in the C4 evidence: ceiling 1 is setCeiling 0
(0 dBFS), the coefficients are inside (0,1), lookaheadSamples 2 corresponds
to a lookahead of 1/24 ms, and the gain-reduction dB readout never matters
to the delay property (all smoothed gains in the run are 1, and the genuine
-20*log10(max(1,1e-4)) is 0, which the stand-in returns). -/
def limParamsC4 : LimParams :=
  { enabled := true, ceiling := 1, releaseCoeff := 1 / 2,
    lookaheadSamples := 2, attackCoeff := 1 / 2, gainDbOf := fun _ => 0 }

/-- C4 counterexample: with lookahead_ms = 1/24 the sample count is
N_la = 2 (round and truncation agree here), and the claim predicts that
output sample 2 equals input sample 0 times the smoothed gain, i.e.
(1/2) * 1 = 1/2.  The code instead outputs 0 at index 2; the stored sample
emerges only at index 3 = N_la + 1, because the ring has N_la + 1 slots and
a stored sample is read back N_la + 1 steps later. -/
theorem C4_counterexample :
    (Limiter.process limParamsC4 (Limiter.initState 2) [1/2, 0, 0, 0]).2
      = [0, 0, 0, 1/2]
    ∧ Limiter.setLookahead (1/24) = 2
    ∧ (Limiter.process limParamsC4 (Limiter.initState 2) [1/2, 0, 0]).1.smoothedGain = 1
    ∧ (0 : ℚ) ≠ 1/2 * 1 := by
  refine ⟨?_, ?_, ?_, by norm_num⟩
  · norm_num [Limiter.process, limParamsC4, Limiter.runLA, Limiter.stepLA,
      Limiter.initState, Limiter.peak, List.getD, List.replicate, clampQ,
      abs_of_nonneg]
  · norm_num [Limiter.setLookahead, clampQ]
    rfl
  · norm_num [Limiter.process, limParamsC4, Limiter.runLA, Limiter.stepLA,
      Limiter.initState, Limiter.peak, List.getD, List.replicate, clampQ,
      abs_of_nonneg]

/-- C4 amended: the lookahead ring has lookaheadSamples_ + 1 slots, so for
lookaheadSamples_ = N at least 1 the added latency is N + 1 samples: output
sample i is the smoothed gain after step i times input sample i - (N + 1)
(zero while i < N + 1).  The sample count itself is the truncation (not the
rounding) of lookahead_ms * 48000 / 1000.  With lookaheadSamples_ = 0 the
limiter is instantaneous: output k is the smoothed gain times input k. -/
theorem C4_delay_is_lookahead_plus_one (p : LimParams) (xs : List ℚ) (i : ℕ)
    (he : p.enabled = true) (hN : 1 ≤ p.lookaheadSamples) (hi : i < xs.length) :
    (Limiter.process p (Limiter.initState p.lookaheadSamples) xs).2.getD i 0
      = (Limiter.runLA p (Limiter.initState p.lookaheadSamples)
          (xs.take (i + 1))).1.smoothedGain
        * xpad xs (p.lookaheadSamples + 1) i
    ∧ (∀ (q : LimParams) (s : LimState) (ys : List ℚ) (k : ℕ), k < ys.length →
        (Limiter.runNoLA q s ys).2.getD k 0
          = (Limiter.runNoLA q s (ys.take (k + 1))).1.smoothedGain * ys.getD k 0) := by
  constructor
  · have hproc : Limiter.process p (Limiter.initState p.lookaheadSamples) xs
        = Limiter.runLA p (Limiter.initState p.lookaheadSamples) xs := by
      unfold Limiter.process
      rw [if_neg (by simp [he]), if_neg (by omega)]
    rw [hproc]
    have h0 := runLA_delay p (p.lookaheadSamples + 1) (by omega) xs xs 0
      (Limiter.initState p.lookaheadSamples)
      (initState_inv _ xs _ rfl) (by simp) i hi
    simpa using h0
  · exact fun q s ys k hk => runNoLA_inst q ys s k hk

/-- Witness for C4_delay_is_lookahead_plus_one at the run of the C4
counterexample: lookaheadSamples 2, four input samples, output index 3. -/
theorem C4_witness :
    limParamsC4.enabled = true ∧ 1 ≤ limParamsC4.lookaheadSamples
    ∧ (3 : ℕ) < ([1/2, 0, 0, 0] : List ℚ).length
    ∧ ((Limiter.process limParamsC4 (Limiter.initState limParamsC4.lookaheadSamples)
          [1/2, 0, 0, 0]).2.getD 3 0
        = (Limiter.runLA limParamsC4 (Limiter.initState limParamsC4.lookaheadSamples)
            (([1/2, 0, 0, 0] : List ℚ).take (3 + 1))).1.smoothedGain
          * xpad [1/2, 0, 0, 0] (limParamsC4.lookaheadSamples + 1) 3
      ∧ (∀ (q : LimParams) (s : LimState) (ys : List ℚ) (k : ℕ), k < ys.length →
          (Limiter.runNoLA q s ys).2.getD k 0
            = (Limiter.runNoLA q s (ys.take (k + 1))).1.smoothedGain * ys.getD k 0)) :=
  ⟨rfl, by norm_num [limParamsC4], by norm_num,
   C4_delay_is_lookahead_plus_one limParamsC4 [1/2, 0, 0, 0] 3 rfl
     (by norm_num [limParamsC4]) (by norm_num)⟩

/-- The gain value after the impulse has been inside the lookahead window
for k + 1 steps: the target ceiling/2 plus the still-unconverged remainder
of the attack smoothing. -/
def gvalC2 (p : LimParams) (k : ℕ) : ℚ :=
  p.ceiling / 2 + (1 - p.ceiling / 2) * p.attackCoeff ^ (k + 1)

theorem peak_impulse : Limiter.peak (2 :: List.replicate 240 (0:ℚ)) = 2 := by
  unfold Limiter.peak
  rw [List.foldl_cons]
  rw [show max 0 |(2:ℚ)| = 2 by norm_num]
  exact foldl_max_abs_zeros 240 2 (by norm_num)

theorem peak_zeros : Limiter.peak (List.replicate 241 (0:ℚ)) = 0 := by
  unfold Limiter.peak
  exact foldl_max_abs_zeros 241 0 le_rfl

theorem set_cons_impulse (j : ℕ) (hj : 1 ≤ j) :
    (2 :: List.replicate 240 (0:ℚ)).set j 0 = 2 :: List.replicate 240 0 := by
  cases j with
  | zero => omega
  | succ j' => rw [List.set_cons_succ, set_replicate_zero]

/-- State evolution while a 2.0 impulse (entered at step 0, ceiling below 1)
sits inside the 241-slot lookahead ring: the ring keeps the impulse in slot
0, the peak scan keeps returning 2, the attack arm keeps running, and the
smoothed gain converges geometrically toward ceiling/2 without reaching it. -/
theorem impulse_state (p : LimParams) (hc1 : p.ceiling ≤ 1)
    (ha0 : 0 < p.attackCoeff) :
    ∀ k, k ≤ 240 →
      (Limiter.runLA p (Limiter.initState 240) ((2:ℚ) :: List.replicate k 0)).1
        = { ring := 2 :: List.replicate 240 0, pos := (k + 1) % 241,
            gainReductionDb := p.gainDbOf (gvalC2 p k),
            smoothedGain := gvalC2 p k } := by
  intro k
  induction k with
  | zero =>
    intro _
    show (Limiter.runLA p (Limiter.initState 240) [2]).1 = _
    simp only [Limiter.runLA]
    simp only [Limiter.stepLA, Limiter.initState]
    have hset : (List.replicate 241 (0:ℚ)).set 0 2 = 2 :: List.replicate 240 0 := by
      rw [List.replicate_succ]
      rfl
    rw [hset, peak_impulse]
    rw [if_pos (by linarith : (2:ℚ) > p.ceiling)]
    rw [if_pos (by linarith : p.ceiling / 2 < 1)]
    refine (LimState.mk.injEq _ _ _ _ _ _ _ _).mpr ⟨rfl, ?_, ?_, ?_⟩
    · rw [List.length_cons, List.length_replicate]
    · congr 1
      rw [gvalC2]
      ring
    · rw [gvalC2]
      ring
  | succ k ih =>
    intro hk
    have hrep : (2:ℚ) :: List.replicate (k+1) 0
        = ((2:ℚ) :: List.replicate k 0) ++ [0] := by
      rw [List.replicate_succ']
      rfl
    rw [hrep, runLA_append, ih (by omega)]
    have hklt : k + 1 < 241 := by omega
    have hmod : (k + 1) % 241 = k + 1 := Nat.mod_eq_of_lt hklt
    simp only [Limiter.runLA]
    simp only [Limiter.stepLA]
    rw [hmod]
    rw [set_cons_impulse (k+1) (by omega), peak_impulse]
    rw [if_pos (by linarith : (2:ℚ) > p.ceiling)]
    have hgpos : p.ceiling / 2 < gvalC2 p k := by
      have h1 : 0 < 1 - p.ceiling / 2 := by linarith
      have h2 : 0 < p.attackCoeff ^ (k + 1) := pow_pos ha0 _
      have := mul_pos h1 h2
      rw [gvalC2]
      linarith
    rw [if_pos hgpos]
    refine (LimState.mk.injEq _ _ _ _ _ _ _ _).mpr ⟨rfl, ?_, ?_, ?_⟩
    · rw [List.length_cons, List.length_replicate]
    · congr 1
      rw [gvalC2, gvalC2]
      ring
    · rw [gvalC2, gvalC2]
      ring

set_option maxRecDepth 8000 in
/-- C2: the limiter ceiling is violated.  A 2.0 impulse entering an idle
limiter with lookaheadSamples_ = 240 (5 ms), any ceiling in (0, 1] and any
attack and release coefficients in the ranges the setters produce, emerges
241 samples later multiplied by a gain that has only decayed to
ceiling/2 + (1 - ceiling/2)*attack^241, and the release step taken at the
emergence instant only raises it; the emerging sample therefore exceeds the
ceiling by at least (2 - ceiling)*attack^241, far beyond float tolerance
(about 0.37 at the genuine attack coefficient exp(-1/240)).  The output
index 241 is more than N_la = 240 samples after the start, inside the
steady-state scope of the claim. -/
theorem C2_ceiling_violated (p : LimParams)
    (he : p.enabled = true) (hN : p.lookaheadSamples = 240)
    (hc0 : 0 < p.ceiling) (hc1 : p.ceiling ≤ 1)
    (ha0 : 0 < p.attackCoeff) (ha1 : p.attackCoeff < 1)
    (hr0 : 0 ≤ p.releaseCoeff) (hr1 : p.releaseCoeff ≤ 1) :
    (Limiter.process p (Limiter.initState p.lookaheadSamples)
        ((2:ℚ) :: List.replicate 241 0)).2.getD 241 0
      = 2 * (p.releaseCoeff * (p.ceiling / 2 + (1 - p.ceiling / 2) * p.attackCoeff ^ 241)
          + (1 - p.releaseCoeff))
    ∧ p.ceiling + (2 - p.ceiling) * p.attackCoeff ^ 241
        ≤ (Limiter.process p (Limiter.initState p.lookaheadSamples)
            ((2:ℚ) :: List.replicate 241 0)).2.getD 241 0
    ∧ p.ceiling < (Limiter.process p (Limiter.initState p.lookaheadSamples)
        ((2:ℚ) :: List.replicate 241 0)).2.getD 241 0 := by
  have hproc : Limiter.process p (Limiter.initState p.lookaheadSamples)
      ((2:ℚ) :: List.replicate 241 0)
      = Limiter.runLA p (Limiter.initState 240) ((2:ℚ) :: List.replicate 241 0) := by
    unfold Limiter.process
    rw [if_neg (by simp [he]), if_neg (by omega), hN]
  have hsplit : (2:ℚ) :: List.replicate 241 0
      = ((2:ℚ) :: List.replicate 240 0) ++ [0] := by
    rw [List.replicate_succ']
    rfl
  have hS := impulse_state p hc1 ha0 240 le_rfl
  set G : ℚ := gvalC2 p 240 with hG
  have hGval : G = p.ceiling / 2 + (1 - p.ceiling / 2) * p.attackCoeff ^ 241 := by
    rw [hG, gvalC2]
  have hGle : G < 1 := by
    have hpowlt : p.attackCoeff ^ 241 < 1 :=
      pow_lt_one₀ (le_of_lt ha0) ha1 (by norm_num)
    have h1 : 0 < 1 - p.ceiling / 2 := by linarith
    have := mul_lt_of_lt_one_right h1 hpowlt
    rw [hGval]
    linarith
  have hstep : (Limiter.stepLA p
      { ring := 2 :: List.replicate 240 0, pos := (240 + 1) % 241,
        gainReductionDb := p.gainDbOf G, smoothedGain := G } 0).2
      = 2 * (p.releaseCoeff * G + (1 - p.releaseCoeff) * 1) := by
    simp only [Limiter.stepLA]
    rw [show (240 + 1) % 241 = 0 from by norm_num]
    rw [show (2 :: List.replicate 240 (0:ℚ)).set 0 0 = List.replicate 241 0 from by
      rw [List.set_cons_zero]
      rfl]
    rw [peak_zeros]
    rw [if_neg (by linarith : ¬ ((0:ℚ) > p.ceiling))]
    rw [if_neg (by linarith : ¬ ((1:ℚ) < G))]
    rw [List.getD_cons_zero]
  have hlen1 : (Limiter.runLA p (Limiter.initState 240)
      ((2:ℚ) :: List.replicate 240 0)).2.length = 241 := by
    rw [runLA_length]
    rw [List.length_cons, List.length_replicate]
  have hout2 : (Limiter.runLA p
      { ring := 2 :: List.replicate 240 0, pos := (240 + 1) % 241,
        gainReductionDb := p.gainDbOf G, smoothedGain := G } [(0:ℚ)]).2
      = [2 * (p.releaseCoeff * G + (1 - p.releaseCoeff) * 1)] := by
    simp only [Limiter.runLA]
    rw [hstep]
  rw [hproc, hsplit, runLA_append, hS, hout2]
  rw [List.getD_append_right _ _ _ _ hlen1.le, hlen1, Nat.sub_self,
    List.getD_cons_zero]
  have h2G : 2 * G = p.ceiling + (2 - p.ceiling) * p.attackCoeff ^ 241 := by
    rw [hGval]
    ring
  have hpow : 0 < p.attackCoeff ^ 241 := pow_pos ha0 _
  clear_value G
  refine ⟨?_, ?_, ?_⟩
  · rw [hGval]
    ring
  · nlinarith [mul_nonneg (sub_nonneg.mpr hr1) (sub_nonneg.mpr (le_of_lt hGle))]
  · nlinarith [mul_nonneg (sub_nonneg.mpr hr1) (sub_nonneg.mpr (le_of_lt hGle)),
      mul_pos (show (0:ℚ) < 2 - p.ceiling from by linarith) hpow]

/-- Limiter parameters used in the C2 witness, rational stand-ins for the
preset podcast limiter (ceiling -1 dB, release 50 ms, lookahead 5 ms):
ceiling 8913/10000 is within float rounding of 10^(-1/20), attackCoeff
239/240 of exp(-1/240), releaseCoeff 2399/2400 of exp(-1/2400); all satisfy
the range hypotheses of the theorem, which hold across the whole parameter
ranges the setters admit. -/
def limParamsC2 : LimParams :=
  { enabled := true, ceiling := 8913 / 10000, releaseCoeff := 2399 / 2400,
    lookaheadSamples := 240, attackCoeff := 239 / 240, gainDbOf := fun _ => 0 }

/-- Witness for C2_ceiling_violated at the concrete parameter record. -/
theorem C2_witness :
    limParamsC2.enabled = true ∧ limParamsC2.lookaheadSamples = 240
    ∧ (0 : ℚ) < limParamsC2.ceiling ∧ limParamsC2.ceiling ≤ 1
    ∧ (0 : ℚ) < limParamsC2.attackCoeff ∧ limParamsC2.attackCoeff < 1
    ∧ (0 : ℚ) ≤ limParamsC2.releaseCoeff ∧ limParamsC2.releaseCoeff ≤ 1
    ∧ limParamsC2.ceiling
        < (Limiter.process limParamsC2 (Limiter.initState limParamsC2.lookaheadSamples)
            ((2:ℚ) :: List.replicate 241 0)).2.getD 241 0 :=
  ⟨rfl, rfl, by norm_num [limParamsC2], by norm_num [limParamsC2],
   by norm_num [limParamsC2], by norm_num [limParamsC2],
   by norm_num [limParamsC2], by norm_num [limParamsC2],
   (C2_ceiling_violated limParamsC2 rfl rfl (by norm_num [limParamsC2])
     (by norm_num [limParamsC2]) (by norm_num [limParamsC2])
     (by norm_num [limParamsC2]) (by norm_num [limParamsC2])
     (by norm_num [limParamsC2])).2.2⟩

end WindowsAiMic

namespace WindowsAiMic

/-! ## Resampler (src/engine/src/audio/resampler.cpp)

The linear-interpolation path of Resampler::process is embedded with the
double-precision position and ratio as exact rationals; the engine always
constructs resamplers with one channel (INTERNAL_CHANNELS = 1), so the
channel loop collapses to the single-sample interpolation.  The polyphase
filter bank built by the init routine is used by no code path of process
and is omitted, as is the likewise-unused history buffer. -/

structure ResamplerState where
  srcRate : ℕ
  dstRate : ℕ
  ratio : ℚ
  position : ℚ
  lastSample : ℚ
deriving DecidableEq

/-- State after Resampler::initialize: ratio src/dst, zero position and
retained sample. -/
def Resampler.init (srcRate dstRate : ℕ) : ResamplerState :=
  { srcRate := srcRate, dstRate := dstRate,
    ratio := (srcRate : ℚ) / (dstRate : ℚ), position := 0, lastSample := 0 }

/-- The while loop of Resampler::process: emit interpolated samples while
position_ < frames - 1, advancing position_ by ratio_; returns the emitted
samples and the final position.  idx0 is the size_t cast of the position
(truncation; the position is never negative on any reachable call).  The
0 < ratio conjunct makes the recursion well founded; it holds for every
pair of valid rates and the C loop would not terminate without it. -/
def Resampler.resampleLoop (input : List ℚ) (frames : ℕ) (ratio : ℚ)
    (pos : ℚ) : List ℚ × ℚ :=
  if h : 0 < ratio ∧ pos < (frames : ℚ) - 1 then
    let idx0 := (⌊pos⌋).toNat
    let frac := pos - (idx0 : ℚ)
    let sample0 := input.getD idx0 0
    let sample1 := input.getD (idx0 + 1) 0
    let outSample := sample0 * (1 - frac) + sample1 * frac
    let rest := Resampler.resampleLoop input frames ratio (pos + ratio)
    (outSample :: rest.1, rest.2)
  else ([], pos)
termination_by ((⌈(((frames : ℚ) - 1) - pos) / ratio⌉).toNat)
decreasing_by
  obtain ⟨hr, hp⟩ := h
  have key : (((frames : ℚ) - 1) - (pos + ratio)) / ratio
      = (((frames : ℚ) - 1) - pos) / ratio - 1 := by
    field_simp
    ring
  rw [key, Int.ceil_sub_one]
  have hpos : 0 < (((frames : ℚ) - 1) - pos) / ratio :=
    div_pos (by linarith) hr
  have hceil : 1 ≤ ⌈(((frames : ℚ) - 1) - pos) / ratio⌉ := Int.ceil_pos.mpr hpos
  omega

/-- Model of Resampler::process: verbatim copy at equal rates; otherwise the
interpolation loop runs, the residual position is shifted down by the block
length and clamped at zero, and the last input sample is stored in
lastSample_ (which no other code ever reads). -/
def Resampler.process (st : ResamplerState) (input : List ℚ) :
    ResamplerState × List ℚ :=
  if st.srcRate = st.dstRate then (st, input)
  else
    let frames := input.length
    let lo := Resampler.resampleLoop input frames st.ratio st.position
    let adjusted := lo.2 - (frames : ℚ)
    let clamped := if adjusted < 0 then 0 else adjusted
    let lastSample := if 0 < frames then input.getD (frames - 1) 0 else st.lastSample
    ({ st with position := clamped, lastSample := lastSample }, lo.1)

/-! ## Claim C5 -/

/-- C5: processing a sequence as two blocks does not reproduce the
single-call outputs.  With rates 24000 to 48000 (ratio 1/2) the single call
on [1,0,0,0] emits six samples, but [1,0] followed by [0,0] emits only four:
each block's loop stops at frames - 1, the residual position 1 - 2 = -1 is
clamped to 0, and the retained lastSample_ is never read, so the two output
samples that straddle the block boundary are lost and the fractional
position is not carried across the call. -/
theorem C5_block_split_differs :
    (Resampler.process (Resampler.init 24000 48000) [1, 0]).2 ++
      (Resampler.process (Resampler.process (Resampler.init 24000 48000) [1, 0]).1 [0, 0]).2
      = [1, 1/2, 0, 0]
    ∧ (Resampler.process (Resampler.init 24000 48000) [1, 0, 0, 0]).2
      = [1, 1/2, 0, 0, 0, 0]
    ∧ ([1, 1/2, 0, 0] : List ℚ) ≠ [1, 1/2, 0, 0, 0, 0] := by
  have h1 : Resampler.process (Resampler.init 24000 48000) [1, 0]
      = ({ srcRate := 24000, dstRate := 48000, ratio := 1/2,
           position := 0, lastSample := 0 }, [1, 1/2]) := by
    norm_num [Resampler.process, Resampler.init]
    rw [Resampler.resampleLoop.eq_def]
    norm_num [List.getD]
    rw [Resampler.resampleLoop.eq_def]
    norm_num [List.getD]
    rw [Resampler.resampleLoop.eq_def]
    norm_num [List.getD]
  have h2 : (Resampler.process { srcRate := 24000, dstRate := 48000, ratio := 1/2,
                                 position := 0, lastSample := 0 } [0, 0]).2 = [0, 0] := by
    norm_num [Resampler.process]
    rw [Resampler.resampleLoop.eq_def]
    norm_num [List.getD]
    rw [Resampler.resampleLoop.eq_def]
    norm_num [List.getD]
    rw [Resampler.resampleLoop.eq_def]
    norm_num [List.getD]
  have h3 : (Resampler.process (Resampler.init 24000 48000) [1, 0, 0, 0]).2
      = [1, 1/2, 0, 0, 0, 0] := by
    norm_num [Resampler.process, Resampler.init]
    rw [Resampler.resampleLoop.eq_def]
    norm_num [List.getD]
    rw [Resampler.resampleLoop.eq_def]
    norm_num [List.getD]
    rw [Resampler.resampleLoop.eq_def]
    norm_num [List.getD]
    rw [Resampler.resampleLoop.eq_def]
    norm_num [List.getD]
    rw [Resampler.resampleLoop.eq_def]
    norm_num [List.getD]
    rw [Resampler.resampleLoop.eq_def]
    norm_num [List.getD]
    rw [Resampler.resampleLoop.eq_def]
    norm_num [List.getD]
    simp only [show Int.toNat 2 = 2 from rfl]
    norm_num
  refine ⟨?_, h3, ?_⟩
  · rw [h1, h2]
    rfl
  · intro h
    exact absurd (congrArg List.length h) (by norm_num)

end WindowsAiMic

namespace WindowsAiMic

/-- The consecutive complete 480-sample chunks of a sample stream. -/
def RNNoise.chunkFrames (l : List ℚ) : List (List ℚ) :=
  if h : 480 ≤ l.length then l.take 480 :: RNNoise.chunkFrames (l.drop 480)
  else []
termination_by l.length
decreasing_by
  simp only [List.length_drop]
  omega

/-- The residue of a sample stream after removing its complete 480-sample
chunks; always shorter than 480 samples. -/
def RNNoise.chunkRem (l : List ℚ) : List ℚ :=
  if h : 480 ≤ l.length then RNNoise.chunkRem (l.drop 480) else l
termination_by l.length
decreasing_by
  simp only [List.length_drop]
  omega

theorem chunkRem_length_aux :
    ∀ (n : ℕ) (l : List ℚ), l.length ≤ n → (RNNoise.chunkRem l).length < 480 := by
  intro n
  induction n with
  | zero =>
    intro l hl
    rw [RNNoise.chunkRem.eq_def]
    split
    · next h => omega
    · next h => omega
  | succ n ih =>
    intro l hl
    rw [RNNoise.chunkRem.eq_def]
    split
    · next h =>
      apply ih
      simp only [List.length_drop]
      omega
    · next h => omega

theorem chunkRem_length (l : List ℚ) : (RNNoise.chunkRem l).length < 480 :=
  chunkRem_length_aux l.length l le_rfl

theorem chunkFrames_mem_aux :
    ∀ (n : ℕ) (l : List ℚ), l.length ≤ n →
      ∀ f ∈ RNNoise.chunkFrames l, f.length = 480 := by
  intro n
  induction n with
  | zero =>
    intro l hl f hf
    rw [RNNoise.chunkFrames.eq_def] at hf
    split at hf
    · next h => omega
    · next h => simp at hf
  | succ n ih =>
    intro l hl f hf
    rw [RNNoise.chunkFrames.eq_def] at hf
    split at hf
    · next h =>
      rcases List.mem_cons.mp hf with h1 | h2
      · subst h1
        rw [List.length_take]
        omega
      · exact ih (l.drop 480) (by simp only [List.length_drop]; omega) f h2
    · next h => simp at hf

theorem chunkFrames_mem (l : List ℚ) :
    ∀ f ∈ RNNoise.chunkFrames l, f.length = 480 :=
  chunkFrames_mem_aux l.length l le_rfl

theorem chunk_append_aux :
    ∀ (n : ℕ) (l m : List ℚ), l.length ≤ n →
      RNNoise.chunkFrames (l ++ m)
        = RNNoise.chunkFrames l
          ++ RNNoise.chunkFrames (RNNoise.chunkRem l ++ m)
      ∧ RNNoise.chunkRem (l ++ m)
        = RNNoise.chunkRem (RNNoise.chunkRem l ++ m) := by
  intro n
  induction n with
  | zero =>
    intro l m hl
    have hnil : l = [] := List.length_eq_zero.mp (by omega)
    subst hnil
    have hcf : RNNoise.chunkFrames [] = [] := by
      rw [RNNoise.chunkFrames.eq_def]
      norm_num
    have hcr : RNNoise.chunkRem ([] : List ℚ) = [] := by
      rw [RNNoise.chunkRem.eq_def]
      norm_num
    rw [List.nil_append, hcf, hcr, List.nil_append, List.nil_append]
    exact ⟨rfl, rfl⟩
  | succ n ih =>
    intro l m hl
    by_cases h : 480 ≤ l.length
    · have htake : (l ++ m).take 480 = l.take 480 := List.take_append_of_le_length h
      have hdrop : (l ++ m).drop 480 = l.drop 480 ++ m := List.drop_append_of_le_length h
      have hlm : 480 ≤ (l ++ m).length := by
        rw [List.length_append]
        omega
      have hrec := ih (l.drop 480) m (by simp only [List.length_drop]; omega)
      constructor
      · rw [RNNoise.chunkFrames.eq_def]
        rw [dif_pos hlm, htake, hdrop]
        conv_rhs => rw [RNNoise.chunkFrames.eq_def]
        rw [dif_pos h]
        rw [show RNNoise.chunkRem l = RNNoise.chunkRem (l.drop 480) from by
          conv_lhs => rw [RNNoise.chunkRem.eq_def]
          rw [dif_pos h]]
        rw [hrec.1]
        simp
      · rw [RNNoise.chunkRem.eq_def]
        rw [dif_pos hlm, hdrop]
        rw [show RNNoise.chunkRem l = RNNoise.chunkRem (l.drop 480) from by
          conv_lhs => rw [RNNoise.chunkRem.eq_def]
          rw [dif_pos h]]
        exact hrec.2
    · have hcl : RNNoise.chunkFrames l = [] := by
        rw [RNNoise.chunkFrames.eq_def, dif_neg h]
      have hrl : RNNoise.chunkRem l = l := by
        rw [RNNoise.chunkRem.eq_def, dif_neg h]
      rw [hcl, hrl]
      simp

end WindowsAiMic

namespace WindowsAiMic

theorem processLoop_nil (infer : List ℚ → List ℚ) (att : ℚ)
    (pending ring : List ℚ) (pos : ℕ) :
    RNNoise.processLoop infer att pending ring pos []
      = { pending := pending, outRing := ring, outPos := pos, trace := [] } := by
  rw [RNNoise.processLoop.eq_def]
  rfl

theorem processLoop_spec (infer : List ℚ → List ℚ) (att : ℚ) :
    ∀ (n : ℕ) (input pending ring : List ℚ) (pos : ℕ),
      input.length ≤ n → pending.length < 480 →
      (RNNoise.processLoop infer att pending ring pos input).pending
          = RNNoise.chunkRem (pending ++ input)
      ∧ (RNNoise.processLoop infer att pending ring pos input).trace
          = RNNoise.chunkFrames (pending ++ input) := by
  intro n
  induction n with
  | zero =>
    intro input pending ring pos hn hp
    have hnil : input = [] := List.length_eq_zero.mp (by omega)
    subst hnil
    rw [processLoop_nil, List.append_nil]
    constructor
    · rw [RNNoise.chunkRem.eq_def, dif_neg (by omega)]
    · rw [RNNoise.chunkFrames.eq_def, dif_neg (by omega)]
  | succ n ih =>
    intro input pending ring pos hn hp
    by_cases hin : input = []
    · subst hin
      rw [processLoop_nil, List.append_nil]
      constructor
      · rw [RNNoise.chunkRem.eq_def, dif_neg (by omega)]
      · rw [RNNoise.chunkFrames.eq_def, dif_neg (by omega)]
    · rw [RNNoise.processLoop.eq_def]
      simp only [dif_neg hin, dif_pos hp]
      set k := min input.length (480 - pending.length) with hk
      have hinpos : 0 < input.length := List.length_pos.mpr hin
      have hk1 : 1 ≤ k := by omega
      have hklen : k ≤ input.length := by omega
      have hp2len : (pending ++ input.take k).length = pending.length + k := by
        rw [List.length_append, List.length_take]
        omega
      have hsplit : pending ++ input = (pending ++ input.take k) ++ input.drop k := by
        rw [List.append_assoc, List.take_append_drop]
      by_cases h480 : (pending ++ input.take k).length = 480
      · rw [if_pos h480]
        have hdlen : (input.drop k).length ≤ n := by
          simp only [List.length_drop]
          omega
        have hrec := ih (input.drop k) []
          (RNNoise.ringWrite ring pos
            (RNNoise.processFrame infer att (pending ++ input.take k))).1
          (RNNoise.ringWrite ring pos
            (RNNoise.processFrame infer att (pending ++ input.take k))).2
          hdlen (by norm_num)
        rw [List.nil_append] at hrec
        have hchunkF : RNNoise.chunkFrames (pending ++ input)
            = (pending ++ input.take k) :: RNNoise.chunkFrames (input.drop k) := by
          rw [hsplit, RNNoise.chunkFrames.eq_def]
          rw [dif_pos (by rw [List.length_append]; omega)]
          rw [show (480 : ℕ) = (pending ++ input.take k).length from h480.symm]
          rw [List.take_left, List.drop_left]
        have hchunkR : RNNoise.chunkRem (pending ++ input)
            = RNNoise.chunkRem (input.drop k) := by
          rw [hsplit, RNNoise.chunkRem.eq_def]
          rw [dif_pos (by rw [List.length_append]; omega)]
          rw [show (480 : ℕ) = (pending ++ input.take k).length from h480.symm]
          rw [List.drop_left]
        constructor
        · rw [hchunkR]
          exact hrec.1
        · rw [hchunkF]
          rw [show ({ RNNoise.processLoop infer att []
              (RNNoise.ringWrite ring pos
                (RNNoise.processFrame infer att (pending ++ input.take k))).1
              (RNNoise.ringWrite ring pos
                (RNNoise.processFrame infer att (pending ++ input.take k))).2
              (input.drop k) with
              trace := (pending ++ input.take k) ::
                (RNNoise.processLoop infer att []
                  (RNNoise.ringWrite ring pos
                    (RNNoise.processFrame infer att (pending ++ input.take k))).1
                  (RNNoise.ringWrite ring pos
                    (RNNoise.processFrame infer att (pending ++ input.take k))).2
                  (input.drop k)).trace } : LoopResult).trace
            = (pending ++ input.take k) ::
                (RNNoise.processLoop infer att []
                  (RNNoise.ringWrite ring pos
                    (RNNoise.processFrame infer att (pending ++ input.take k))).1
                  (RNNoise.ringWrite ring pos
                    (RNNoise.processFrame infer att (pending ++ input.take k))).2
                  (input.drop k)).trace from rfl]
          rw [hrec.2]
      · rw [if_neg h480]
        have hkl : k = input.length := by omega
        have hdropnil : input.drop k = [] := by
          rw [hkl]
          exact List.drop_length input
        have htake : input.take k = input := by
          rw [hkl]
          exact List.take_length input
        have hp2 : (pending ++ input.take k).length < 480 := by
          rw [hp2len]
          omega
        have hrec := ih (input.drop k) (pending ++ input.take k) ring pos
          (by rw [hdropnil]; norm_num) hp2
        rw [hdropnil, List.append_nil] at hrec
        rw [hdropnil, htake]
        rw [htake] at hrec
        exact hrec
end WindowsAiMic

namespace WindowsAiMic

/-- A sequence of RNNoiseProcessor::process calls on consecutive blocks,
collecting the concatenated inference traces. -/
def RNNoise.runBlocks (infer : List ℚ → List ℚ) (att : ℚ) :
    RNNoiseState → List (List ℚ) → RNNoiseState × List (List ℚ)
  | s, [] => (s, [])
  | s, b :: bs =>
    let r := RNNoise.process infer att s b
    let rest := RNNoise.runBlocks infer att r.state bs
    (rest.1, r.trace ++ rest.2)

theorem process_true_state (infer : List ℚ → List ℚ) (att : ℚ)
    (p ring : List ℚ) (pos : ℕ) (b : List ℚ) :
    (RNNoise.process infer att ⟨true, p, ring, pos⟩ b).state
      = ⟨true, (RNNoise.processLoop infer att p ring pos b).pending,
          (RNNoise.processLoop infer att p ring pos b).outRing,
          (RNNoise.processLoop infer att p ring pos b).outPos⟩
    ∧ (RNNoise.process infer att ⟨true, p, ring, pos⟩ b).trace
      = (RNNoise.processLoop infer att p ring pos b).trace := by
  constructor <;> rfl

theorem runBlocks_trace (infer : List ℚ → List ℚ) (att : ℚ) :
    ∀ (bs : List (List ℚ)) (p ring : List ℚ) (pos : ℕ), p.length < 480 →
      (RNNoise.runBlocks infer att ⟨true, p, ring, pos⟩ bs).2
        = RNNoise.chunkFrames (p ++ bs.join) := by
  intro bs
  induction bs with
  | nil =>
    intro p ring pos hp
    show ([] : List (List ℚ)) = _
    rw [show ([] : List (List ℚ)).join = ([] : List ℚ) from rfl, List.append_nil,
      RNNoise.chunkFrames.eq_def, dif_neg (by omega)]
  | cons b bs ih =>
    intro p ring pos hp
    have hspec := processLoop_spec infer att b.length b p ring pos le_rfl hp
    show (RNNoise.process infer att ⟨true, p, ring, pos⟩ b).trace
        ++ (RNNoise.runBlocks infer att
            (RNNoise.process infer att ⟨true, p, ring, pos⟩ b).state bs).2
      = _
    rw [(process_true_state infer att p ring pos b).2,
        (process_true_state infer att p ring pos b).1]
    rw [hspec.2, hspec.1]
    rw [ih (RNNoise.chunkRem (p ++ b)) _ _ (chunkRem_length (p ++ b))]
    have happ := chunk_append_aux (p ++ b).length (p ++ b) bs.join le_rfl
    rw [← happ.1, show ((b :: bs).join : List ℚ) = b ++ bs.join from rfl,
      ← List.append_assoc]

/-- C3: denoiser frame alignment.  For every sequence of process calls with
arbitrary block sizes, the frames passed to the inference step are exactly
the consecutive complete 480-sample chunks of the concatenated input, in
order and each exactly once (the recorded trace equals the chunk list), and
every such frame has exactly 480 samples aligned to the start of the
internal frame buffer (each chunk is the accumulated buffer content at the
moment bufferPos_ reaches 480). -/
theorem C3_denoiser_alignment (infer : List ℚ → List ℚ) (att : ℚ) (blocks : List (List ℚ)) :
    (RNNoise.runBlocks infer att RNNoise.initState blocks).2
      = RNNoise.chunkFrames blocks.join
    ∧ ∀ f ∈ RNNoise.chunkFrames blocks.join, f.length = 480 := by
  constructor
  · have h := runBlocks_trace infer att blocks [] (List.replicate 1920 0) 0 (by norm_num)
    rw [List.nil_append] at h
    exact h
  · exact chunkFrames_mem blocks.join

end WindowsAiMic

